import Mathlib

/-!
Verification development for the jira-zephyr-mcp repository.

This file gives a shallow embedding, in Lean 4, of the two engines the
specification covers:

* the Step Mutation Engine of `src/clients/zephyr-client.ts`
  (`createTestCaseSteps`, `updateTestCaseSteps`), and
* the in-memory Filter/Sort Engine of `src/tools/test-cases.ts`
  (`getTestCases`: the big filter callback and the sort comparator),

together with theorems settling the frozen claims about them.

Modelling conventions:

* JavaScript `undefined`-able values are `Option`; `a ?? b` is `Option.getD`;
  the truthiness-based `a || b` on strings is `jsOr` below (the empty string
  is falsy).
* Timestamps: the code calls `new Date(s)` on ISO strings and compares the
  results.  We abstract a parsed date as an `Int` (milliseconds); an absent
  date field is `none` and behaves like `NaN` (all order comparisons false),
  matching JS semantics.
* `Array.prototype.sort` with a consistent comparator is, per the ECMAScript
  specification, a stable sort; we model it with `sortByC`, a left-to-right
  stable insertion sort.
* Fallible code returns `Except String`; the only places that can fail are
  the places where the JS code can throw (the explicit `throw new Error` in
  `createTestCaseSteps`, and a property access on `null`).
-/

/-- JS `a || b` for two possibly-undefined strings: returns `a` when `a` is a
truthy string (present and non-empty), otherwise returns `b` unchanged. -/
def jsOr (a b : Option String) : Option String :=
  match a with
  | some s => if s = "" then b else some s
  | none => b

/-- JS `a || b` where `b` is a plain (defined) string, yielding a string. -/
def jsOrD (a : Option String) (b : String) : String :=
  match a with
  | some s => if s = "" then b else s
  | none => b

/-- JS `String.prototype.toLowerCase`, restricted to ASCII case folding
(`Char.toLower` agrees with JS on ASCII, the only range the claims use). -/
def jsLower (s : String) : String :=
  ⟨s.data.map Char.toLower⟩

/-- Test that `n` is a prefix of `h` (character lists). -/
def chStarts : List Char → List Char → Bool
  | _, [] => true
  | [], _ :: _ => false
  | a :: as, b :: bs => a == b && chStarts as bs

/-- Test that `n` occurs somewhere in `h` (character lists). -/
def chHas : List Char → List Char → Bool
  | [], n => n.isEmpty
  | a :: as, n => chStarts (a :: as) n || chHas as n

/-- JS `h.includes(n)`. -/
def sIncludes (h n : String) : Bool :=
  chHas h.data n.data

/-- JS `h.startsWith(n)`. -/
def sStarts (h n : String) : Bool :=
  chStarts h.data n.data

/-- JS `h.endsWith(n)`. -/
def sEnds (h n : String) : Bool :=
  chStarts h.data.reverse n.data.reverse

/-!  A model of `Array.prototype.sort` with a three-way comparator: a stable
sort, inserting each element (left to right) after every element the
comparator does not order strictly after it. -/

/-- Insert `x` into `l`, placing it before the first `y` with `c y x > 0`. -/
def insertByC (c : α → α → Int) (x : α) : List α → List α
  | [] => [x]
  | y :: ys => if 0 < c y x then x :: y :: ys else y :: insertByC c x ys

/-- Stable sort by a three-way comparator (the ECMAScript-mandated stable
behaviour of `Array.prototype.sort` for consistent comparators). -/
def sortByC (c : α → α → Int) (l : List α) : List α :=
  l.foldl (fun acc x => insertByC c x acc) []

/-- The induced element comparator of a key-based comparator. -/
def keyCmp {κ : Type} (key : α → κ) (kc : κ → κ → Int) (a b : α) : Int :=
  kc (key a) (key b)

/-- Invariant maintained by insertion: no element is strictly after a later one. -/
def SortInv {κ : Type} (key : α → κ) (kc : κ → κ → Int) (l : List α) : Prop :=
  l.Pairwise fun a b => ¬ 0 < keyCmp key kc a b

/-! ## Step Mutation Engine (`src/clients/zephyr-client.ts`) -/

/-- One step record as it flows through the client: caller fragments carry the
top-level fields (`createTestCaseSteps` signature, lines 360-362), and raw
records fetched by `getTestCaseSteps` may instead carry the service's
`inline` shape (read as `existing.inline?.description || existing.description`
at lines 624-634 and 653-655). -/
structure InlineStep where
  description : Option String
  testData : Option String
  expectedResult : Option String
deriving DecidableEq, Repr

structure JStep where
  index : Option Int
  description : Option String
  testData : Option String
  expectedResult : Option String
  inline : Option InlineStep
deriving DecidableEq, Repr

/-- One item of the `OVERWRITE` payload posted to the write boundary
(zephyr-client.ts lines 371-382): `description` is passed through as-is,
`testData` and `expectedResult` are defaulted with `?? ''`. -/
structure PayloadItem where
  description : Option String
  testData : String
  expectedResult : String
deriving DecidableEq, Repr

def toItem (s : JStep) : PayloadItem :=
  { description := s.description
    testData := s.testData.getD ""
    expectedResult := s.expectedResult.getD "" }

/-- The sort key of the payload sort: `a.index ?? 0`. -/
def idxKey (s : JStep) : Int :=
  s.index.getD 0

/-- The payload comparator `(a.index ?? 0) - (b.index ?? 0)` (line 374). -/
def stepCmp (a b : JStep) : Int :=
  idxKey a - idxKey b

/-- JS `step.index || fallback`: `0` (and absence) are falsy. -/
def jsOrInt (a : Option Int) (b : Int) : Int :=
  match a with
  | some i => if i = 0 then b else i
  | none => b

/-- Model of `ZephyrClient.createTestCaseSteps` (zephyr-client.ts lines 360-393), the
pure part: validates, stably sorts by caller index and builds the payload
items of the single `mode: 'OVERWRITE'` POST. -/
def createTestCaseSteps (steps : List JStep) : Except String (List PayloadItem) :=
  if steps.length = 0 then
    .error "No steps to post. Provide at least one step."
  else if steps.length > 100 then
    .error "Too many steps. Zephyr Scale bulk limit is 100."
  else
    .ok ((sortByC stepCmp steps).map toItem)

/-- JS `.map((x, idx) => ...)` with the running array index. -/
def mapIdx (f : Nat → α → β) : Nat → List α → List β
  | _, [] => []
  | i, x :: xs => f i x :: mapIdx f (i + 1) xs

/-- JS `.filter((x, idx) => ...)` with the running array index. -/
def filterIdx (p : Nat → α → Bool) : Nat → List α → List α
  | _, [] => []
  | i, x :: xs => if p i x then x :: filterIdx p (i + 1) xs else filterIdx p (i + 1) xs

/-- Source: `existing.inline?.description || existing.description`. -/
def stepDesc (e : JStep) : Option String :=
  jsOr (e.inline.bind fun i => i.description) e.description

/-- Source: `existing.inline?.expectedResult || existing.expectedResult`. -/
def stepER (e : JStep) : Option String :=
  jsOr (e.inline.bind fun i => i.expectedResult) e.expectedResult

/-- Source: `existing.inline?.testData || existing.testData || ''`. -/
def stepTD (e : JStep) : String :=
  jsOrD (e.inline.bind fun i => i.testData) (jsOrD e.testData "")

/-- Source: `new Map(steps.map(s => [s.index, s])).get(stepIndex)`; a JS `Map` keeps
the last entry for a duplicated key. -/
def updateLookup (steps : List JStep) (stepIndex : Int) : Option JStep :=
  steps.reverse.find? fun s => s.index == some stepIndex

inductive StepMode
  | REPLACE
  | APPEND
  | UPDATE
  | DELETE
deriving DecidableEq, Repr

/-- The `stepOperations` argument (updateTestCaseSchema, validation schema
lines 128-137). -/
structure StepOperations where
  mode : StepMode
  steps : Option (List JStep)
  deleteIndexes : Option (List Int)
deriving DecidableEq, Repr

/-- One step of the UPDATE mode's `existingSteps.map((existing, idx) => ...)`
(zephyr-client.ts lines 617-636): position `idx` becomes `stepIndex = idx + 1`,
the fragment map is consulted, and the present fragment fields are merged with
truthiness `||` for description/expectedResult and a strict
`!== undefined` test for testData. -/
def updStep (steps : List JStep) (idx : Nat) (existing : JStep) : JStep :=
  match updateLookup steps ((idx : Int) + 1) with
  | some u =>
      { index := some ((idx : Int) + 1)
        description := jsOr u.description (stepDesc existing)
        testData := some (match u.testData with
          | some t => t
          | none => stepTD existing)
        expectedResult := jsOr u.expectedResult (stepER existing)
        inline := none }
  | none =>
      { index := some ((idx : Int) + 1)
        description := stepDesc existing
        testData := some (stepTD existing)
        expectedResult := stepER existing
        inline := none }

/-- The payload item the UPDATE mode produces for one existing step from the
fragment matched at its position (if any): `updStep` composed with `toItem`.
Fragment description/expectedResult overlay only when truthy, testData
whenever present; an unmatched step passes its values through with testData
normalized to the empty string. -/
def overlayItem (u? : Option JStep) (e : JStep) : PayloadItem :=
  match u? with
  | some u =>
      { description := jsOr u.description (stepDesc e)
        testData :=
          match u.testData with
          | some t => t
          | none => stepTD e
        expectedResult := (jsOr u.expectedResult (stepER e)).getD "" }
  | none =>
      { description := stepDesc e
        testData := stepTD e
        expectedResult := (stepER e).getD "" }

/-- Model of `ZephyrClient.updateTestCaseSteps` (zephyr-client.ts lines 564-680),
restricted to its `stepOperations` switch (lines 578-670); `existingSteps` is
what `getTestCaseSteps` returned.  The result is `.ok none` when no write is
performed, `.ok (some items)` when a single `OVERWRITE` write of `items` is
posted, and `.error` when the code throws before writing. -/
def updateTestCaseSteps (ops : StepOperations) (existingSteps : List JStep) :
    Except String (Option (List PayloadItem)) :=
  match ops.mode with
  | .REPLACE =>
      match ops.steps with
      | some steps =>
          if steps.length > 0 then (createTestCaseSteps steps).map some
          else .ok none
      | none => .ok none
  | .APPEND =>
      match ops.steps with
      | some steps =>
          if steps.length > 0 then
            let maxIndex : Int := existingSteps.length
            let newSteps := mapIdx (fun idx step =>
              { step with index := some (jsOrInt step.index (maxIndex + idx + 1)) }) 0 steps
            (createTestCaseSteps (existingSteps ++ newSteps)).map some
          else .ok none
      | none => .ok none
  | .UPDATE =>
      match ops.steps with
      | some steps =>
          if steps.length > 0 then
            (createTestCaseSteps (mapIdx (updStep steps) 0 existingSteps)).map some
          else .ok none
      | none => .ok none
  | .DELETE =>
      match ops.deleteIndexes with
      | some deleteIndexes =>
          if deleteIndexes.length > 0 then
            let remainingSteps := mapIdx (fun idx step =>
              { index := some ((idx : Int) + 1)
                description := stepDesc step
                testData := some (stepTD step)
                expectedResult := stepER step
                inline := none })
              0 (filterIdx (fun idx _ => !(deleteIndexes.contains ((idx : Int) + 1))) 0 existingSteps)
            if remainingSteps.length > 0 then
              (createTestCaseSteps remainingSteps).map some
            else
              .ok (some [])
          else .ok none
      | none => .ok none

/-! ## Filter/Sort Engine (`src/tools/test-cases.ts`, `getTestCases`) -/

/-- The shapes `status` / `priority` can arrive in: a structured reference
(`{name: ...}`), a plain string, or absent (test-cases.ts lines 333, 345). -/
inductive NameVal
  | absent
  | nstr (s : String)
  | nobj (name : Option String)
deriving DecidableEq, Repr

/-- The shapes `folder` can arrive in (lines 356-368). -/
inductive FolderVal
  | absent
  | fstr (s : String)
  | fobj (id : Option String) (name : Option String) (path : Option String)
deriving DecidableEq, Repr

/-- One element of a labels array: a string, an object, or `null`
(lines 387-390; note `typeof null === 'object'` in JS). -/
inductive LabelElem
  | lstr (s : String)
  | lobj (name : Option String) (value : Option String)
  | lnull
deriving DecidableEq, Repr

/-- The shapes `labels` can arrive in (lines 385-397). -/
inductive LabelsVal
  | absent
  | lsstr (s : String)
  | larr (es : List LabelElem)
  | lsobj (name : Option String) (value : Option String)
deriving DecidableEq, Repr

structure OwnerVal where
  accountId : Option String
  emailAddress : Option String
deriving DecidableEq, Repr

structure CompVal where
  id : Option String
deriving DecidableEq, Repr

structure LinksVal where
  issuesLen : Option Nat
deriving DecidableEq, Repr

structure ScriptVal where
  type : Option String
  stepsLen : Option Nat
deriving DecidableEq, Repr

/-- A custom-field value, compared with strict equality (line 486). -/
inductive CFVal
  | cstr (s : String)
  | cnum (n : Int)
  | cbool (b : Bool)
deriving DecidableEq, Repr

/-- The entity record as the filter callback reads it.  Date-valued fields
(`createdOn`, `lastModifiedOn`, and the date filters) are modelled as parsed
millisecond timestamps; `none` stands for an absent field, whose `new Date`
is `NaN` and compares false both ways. -/
structure TestCaseRec where
  name : Option String
  objective : Option String
  precondition : Option String
  status : NameVal
  priority : NameVal
  folder : FolderVal
  folderId : Option String
  folderName : Option String
  labels : LabelsVal
  component : Option CompVal
  owner : Option OwnerVal
  createdOn : Option Int
  lastModifiedOn : Option Int
  links : Option LinksVal
  testScript : Option ScriptVal
  estimatedTime : Option Int
  testType : Option String
  customFields : Option (List (String × CFVal))
deriving DecidableEq, Repr

/-- A multi-value filter: a single string or an array (schema lines 173-180). -/
inductive StrOrList
  | one (s : String)
  | many (l : List String)
deriving DecidableEq, Repr

def StrOrList.toList : StrOrList → List String
  | .one s => [s]
  | .many l => l

/-- The validated `filters` object of `getTestCasesSchema` (validation schema
lines 161-209).  `createdBy` and `lastModifiedBy` are declared by the schema
but no predicate in the filter callback reads them. -/
structure Filters where
  title : Option String
  titleContains : Option String
  titleStartsWith : Option String
  titleEndsWith : Option String
  objectiveContains : Option String
  preconditionContains : Option String
  status : Option StrOrList
  priority : Option StrOrList
  folderId : Option String
  folderPath : Option String
  labels : Option (List String)
  componentId : Option String
  owner : Option String
  createdBy : Option String
  lastModifiedBy : Option String
  createdAfter : Option Int
  createdBefore : Option Int
  modifiedAfter : Option Int
  modifiedBefore : Option Int
  hasLinkedIssues : Option Bool
  hasTestSteps : Option Bool
  estimatedTimeMin : Option Int
  estimatedTimeMax : Option Int
  customFields : Option (List (String × CFVal))
  testType : Option String
  testScriptType : Option String
deriving DecidableEq, Repr

inductive SearchMode
  | AND
  | OR
deriving DecidableEq, Repr

structure QueryOpts where
  searchMode : SearchMode
  caseSensitive : Bool
deriving DecidableEq, Repr

/-- Contribute one boolean to the `matches` list when the filter key is
present, nothing when it is absent. -/
def push1 (o : Option α) (f : α → Bool) : List Bool :=
  match o with
  | some v => [f v]
  | none => []

/-- Exact title match (lines 286-291). -/
def titleExact (cs : Bool) (nm : Option String) (v : String) : Bool :=
  if cs then nm == some v
  else match nm with
    | some n => jsLower n == jsLower v
    | none => false

/-- The `contains` text match, null-safe (`contains || false`, lines 293-298). -/
def textContains (cs : Bool) (src : Option String) (v : String) : Bool :=
  match src with
  | some s => if cs then sIncludes s v else sIncludes (jsLower s) (jsLower v)
  | none => false

/-- The `startsWith` text match (lines 300-305). -/
def textStarts (cs : Bool) (src : Option String) (v : String) : Bool :=
  match src with
  | some s => if cs then sStarts s v else sStarts (jsLower s) (jsLower v)
  | none => false

/-- The `endsWith` text match (lines 307-312). -/
def textEnds (cs : Bool) (src : Option String) (v : String) : Bool :=
  match src with
  | some s => if cs then sEnds s v else sEnds (jsLower s) (jsLower v)
  | none => false

/-- Source: `typeof x === 'object' ? x?.name : x` (lines 333, 345). -/
def nameOf : NameVal → Option String
  | .absent => none
  | .nstr s => some s
  | .nobj name => name

/-- Multi-value status/priority match (lines 330-351). -/
def metaMatch (cs : Bool) (val : NameVal) (f : StrOrList) : Bool :=
  f.toList.any fun s =>
    if cs then nameOf val == some s
    else match nameOf val with
      | some n => jsLower n == jsLower s
      | none => false

/-- Source: `testCase.folder?.id || testCase.folderId || (typeof folder === 'string' ? folder : null)`
(lines 356-358). -/
def resolvedFolderId (tc : TestCaseRec) : Option String :=
  jsOr (match tc.folder with | .fobj id _ _ => id | _ => none)
    (jsOr tc.folderId (match tc.folder with | .fstr s => some s | _ => none))

/-- Source: `testCase.folder?.name || testCase.folder?.path || testCase.folderName || ...`
(lines 365-368). -/
def resolvedFolderPath (tc : TestCaseRec) : Option String :=
  jsOr (match tc.folder with | .fobj _ name _ => name | _ => none)
    (jsOr (match tc.folder with | .fobj _ _ path => path | _ => none)
      (jsOr tc.folderName (match tc.folder with | .fstr s => some s | _ => none)))

/-- Folder-path predicate: exact equality or substring containment, guarded by
the truthiness of the resolved path (lines 370-379). -/
def folderPathMatch (cs : Bool) (tc : TestCaseRec) (v : String) : Bool :=
  match resolvedFolderPath tc with
  | some p =>
      if p = "" then false
      else if cs then p == v || sIncludes p v
      else jsLower p == jsLower v || sIncludes (jsLower p) (jsLower v)
  | none => false

/-- One label element, normalized (line 388-389):
`typeof label === 'object' ? (label.name || label.value || String(label)) : String(label)`;
a `null` element takes the object branch and `null.name` throws. -/
def normElem : LabelElem → Except String String
  | .lnull => .error "TypeError: Cannot read properties of null (reading name)"
  | .lstr s => .ok s
  | .lobj name value => .ok (jsOrD name (jsOrD value "[object Object]"))

/-- Source: `labels.map(normElem)`, stopping at the first thrown error. -/
def normList : List LabelElem → Except String (List String)
  | [] => .ok []
  | e :: es =>
      match normElem e, normList es with
      | .error err, _ => .error err
      | .ok _, .error err => .error err
      | .ok v, .ok vs => .ok (v :: vs)

/-- Label normalization (lines 385-397). -/
def normalizeLabels : LabelsVal → Except String (List String)
  | .larr es => normList es
  | .lsstr s => .ok ((s.splitOn ",").map (fun t => t.trim))
  | .lsobj name value => .ok [jsOrD name (jsOrD value "[object Object]")]
  | .absent => .ok []

/-- Labels predicate: any filter label equals or is contained in any entity
label (lines 400-407). -/
def labelMatch (cs : Bool) (fls tls : List String) : Bool :=
  fls.any fun fl => tls.any fun tl =>
    let ntl := if cs then tl else jsLower tl
    let nfl := if cs then fl else jsLower fl
    ntl == nfl || sIncludes ntl nfl

/-- Source: `!testCase.testScript || !testCase.testScript.type` (line 478). -/
def scriptTypeNone (tc : TestCaseRec) : Bool :=
  match tc.testScript with
  | none => true
  | some ts =>
      match ts.type with
      | none => true
      | some t => t = ""

/-- Source: `testCase.customFields?.[key]` (line 486). -/
def cfGet (tc : TestCaseRec) (k : String) : Option CFVal :=
  tc.customFields.bind fun kvs => (kvs.find? fun kv => kv.1 == k).map fun kv => kv.2

/-- The labels block of the filter callback (lines 383-409): only runs when a
non-empty labels filter is present, and is the sole point of the whole
callback that can throw. -/
def labelsBools (filters : Filters) (o : QueryOpts) (tc : TestCaseRec) :
    Except String (List Bool) :=
  match filters.labels with
  | some fls =>
      if fls.length > 0 then
        (normalizeLabels tc.labels).map fun tls => [labelMatch o.caseSensitive fls tls]
      else .ok []
  | none => .ok []

/-- The filter callback's `matches` list (test-cases.ts lines 282-489), in
source order: one boolean per evaluated predicate. -/
def evalMatches (filters : Filters) (o : QueryOpts) (tc : TestCaseRec) :
    Except String (List Bool) :=
  let cs := o.caseSensitive
  let pre :=
    push1 filters.title (titleExact cs tc.name) ++
    push1 filters.titleContains (textContains cs tc.name) ++
    push1 filters.titleStartsWith (textStarts cs tc.name) ++
    push1 filters.titleEndsWith (textEnds cs tc.name) ++
    push1 filters.objectiveContains (textContains cs tc.objective) ++
    push1 filters.preconditionContains (textContains cs tc.precondition) ++
    push1 filters.status (metaMatch cs tc.status) ++
    push1 filters.priority (metaMatch cs tc.priority) ++
    push1 filters.folderId (fun v => resolvedFolderId tc == some v) ++
    push1 filters.folderPath (folderPathMatch cs tc)
  let post :=
    push1 filters.componentId (fun v => (tc.component.bind fun c => c.id) == some v) ++
    push1 filters.owner (fun v =>
      (tc.owner.bind fun ow => ow.accountId) == some v ||
      (tc.owner.bind fun ow => ow.emailAddress) == some v) ++
    push1 filters.createdAfter (fun v =>
      match tc.createdOn with | some d => decide (d ≥ v) | none => false) ++
    push1 filters.createdBefore (fun v =>
      match tc.createdOn with | some d => decide (d ≤ v) | none => false) ++
    (match filters.modifiedAfter, tc.lastModifiedOn with
      | some v, some d => [decide (d ≥ v)]
      | _, _ => []) ++
    (match filters.modifiedBefore, tc.lastModifiedOn with
      | some v, some d => [decide (d ≤ v)]
      | _, _ => []) ++
    push1 filters.hasLinkedIssues (fun v =>
      (decide (((tc.links.bind fun li => li.issuesLen).getD 0) > 0)) == v) ++
    push1 filters.hasTestSteps (fun v =>
      (((tc.testScript.bind fun ts => ts.type) == some "STEP_BY_STEP") &&
        decide (((tc.testScript.bind fun ts => ts.stepsLen).getD 0) > 0)) == v) ++
    push1 filters.estimatedTimeMin (fun v => decide ((tc.estimatedTime.getD 0) ≥ v)) ++
    push1 filters.estimatedTimeMax (fun v => decide ((tc.estimatedTime.getD 0) ≤ v)) ++
    push1 filters.testType (fun v => tc.testType == some v) ++
    push1 filters.testScriptType (fun v =>
      if v = "NONE" then scriptTypeNone tc
      else (tc.testScript.bind fun ts => ts.type) == some v) ++
    push1 filters.customFields (fun kvs => kvs.all fun kv => cfGet tc kv.1 == some kv.2)
  match labelsBools filters o tc with
  | .error err => .error err
  | .ok lbl => .ok (pre ++ lbl ++ post)

/-- The inclusion decision of the filter callback (lines 491-495):
an empty `matches` list passes; otherwise AND requires all, OR requires any. -/
def entityIncluded (filters : Filters) (o : QueryOpts) (tc : TestCaseRec) :
    Except String Bool :=
  match evalMatches filters o tc with
  | .error err => .error err
  | .ok ms =>
      if ms.length = 0 then .ok true
      else
        match o.searchMode with
        | .AND => .ok (ms.all id)
        | .OR => .ok (ms.any id)

/-- Source: `filteredTestCases.filter(...)` (line 282): order-preserving filtering,
stopping at the first thrown error, as `Array.prototype.filter` does. -/
def filterTestCases (filters : Filters) (o : QueryOpts) :
    List TestCaseRec → Except String (List TestCaseRec)
  | [] => .ok []
  | tc :: rest =>
      match entityIncluded filters o tc, filterTestCases filters o rest with
      | .error err, _ => .error err
      | .ok _, .error err => .error err
      | .ok b, .ok rest2 => .ok (if b then tc :: rest2 else rest2)

/-- The `if (validatedInput.filters)` guard (line 277): with no filters
object at all, the list is passed through untouched. -/
def applyFilters (filters : Option Filters) (o : QueryOpts)
    (l : List TestCaseRec) : Except String (List TestCaseRec) :=
  match filters with
  | some f => filterTestCases f o l
  | none => .ok l

/-- Number of filter keys present on a validated filters object (all 26 keys
of `getTestCasesSchema.filters`). -/
def presentKeyCount (f : Filters) : Nat :=
  f.title.isSome.toNat + f.titleContains.isSome.toNat +
  f.titleStartsWith.isSome.toNat + f.titleEndsWith.isSome.toNat +
  f.objectiveContains.isSome.toNat + f.preconditionContains.isSome.toNat +
  f.status.isSome.toNat + f.priority.isSome.toNat +
  f.folderId.isSome.toNat + f.folderPath.isSome.toNat +
  f.labels.isSome.toNat + f.componentId.isSome.toNat +
  f.owner.isSome.toNat + f.createdBy.isSome.toNat +
  f.lastModifiedBy.isSome.toNat + f.createdAfter.isSome.toNat +
  f.createdBefore.isSome.toNat + f.modifiedAfter.isSome.toNat +
  f.modifiedBefore.isSome.toNat + f.hasLinkedIssues.isSome.toNat +
  f.hasTestSteps.isSome.toNat + f.estimatedTimeMin.isSome.toNat +
  f.estimatedTimeMax.isSome.toNat + f.customFields.isSome.toNat +
  f.testType.isSome.toNat + f.testScriptType.isSome.toNat

/-! ### Sort engine (lines 500-541) -/

/-- A coerced sort value: the comparator sees a string, a number, or
`undefined`/`NaN` (which compares false both ways). -/
inductive JVal
  | jstr (s : String)
  | jnum (n : Int)
  | jundefined
deriving DecidableEq, Repr

/-- Source: `aVal < bVal ? -1 : aVal > bVal ? 1 : 0` (line 538): on two defined
values of the same kind this is a three-way compare; any comparison
involving `undefined`/`NaN` is false, giving 0. -/
def jcmp : JVal → JVal → Int
  | .jstr a, .jstr b => if a < b then -1 else if b < a then 1 else 0
  | .jnum a, .jnum b => if a < b then -1 else if b < a then 1 else 0
  | _, _ => 0

inductive SortKey
  | name
  | createdOn
  | lastModifiedOn
  | priority
  | status
  | estimatedTime
  | folder
deriving DecidableEq, Repr

inductive SortDir
  | asc
  | desc
deriving DecidableEq, Repr

/-- Source: `typeof x === 'object' ? x?.name : x || ''` as a sort coercion
(lines 517-523). -/
def nameSortVal : NameVal → JVal
  | .absent => .jstr ""
  | .nstr s => .jstr s
  | .nobj name =>
      match name with
      | some s => .jstr s
      | none => .jundefined

/-- The per-key coercion of the sort switch (lines 504-536). -/
def sortVal : SortKey → TestCaseRec → JVal
  | .name, tc => .jstr (jsOrD tc.name "")
  | .createdOn, tc =>
      match tc.createdOn with
      | some d => .jnum d
      | none => .jundefined
  | .lastModifiedOn, tc =>
      match tc.lastModifiedOn with
      | some d => .jnum d
      | none => .jnum 0
  | .priority, tc => nameSortVal tc.priority
  | .status, tc => nameSortVal tc.status
  | .estimatedTime, tc => .jnum (tc.estimatedTime.getD 0)
  | .folder, tc =>
      .jstr (match tc.folder with | .fobj _ name _ => jsOrD name "" | _ => "")

/-- Direction application (line 539): `sortOrder === 'asc' ? comparison : -comparison`. -/
def dirCmp (d : SortDir) (v w : JVal) : Int :=
  match d with
  | .asc => jcmp v w
  | .desc => -(jcmp v w)

/-- The full sort comparator of lines 501-540. -/
def entityCmp (k : SortKey) (d : SortDir) (a b : TestCaseRec) : Int :=
  dirCmp d (sortVal k a) (sortVal k b)

/-- Source: `filteredTestCases.sort(comparator)` (line 501). -/
def sortTestCases (k : SortKey) (d : SortDir) (l : List TestCaseRec) :
    List TestCaseRec :=
  sortByC (entityCmp k d) l

/-! ## Named predicates over filter specs, and concrete records used below -/

/-- Every key the filter callback recognizes is absent (the schema's two
remaining keys, `createdBy` and `lastModifiedBy`, have no predicate). -/
def noRecognizedKeys (f : Filters) : Prop :=
  f.title = none ∧ f.titleContains = none ∧ f.titleStartsWith = none ∧
  f.titleEndsWith = none ∧ f.objectiveContains = none ∧
  f.preconditionContains = none ∧ f.status = none ∧ f.priority = none ∧
  f.folderId = none ∧ f.folderPath = none ∧ f.labels = none ∧
  f.componentId = none ∧ f.owner = none ∧ f.createdAfter = none ∧
  f.createdBefore = none ∧ f.modifiedAfter = none ∧ f.modifiedBefore = none ∧
  f.hasLinkedIssues = none ∧ f.hasTestSteps = none ∧
  f.estimatedTimeMin = none ∧ f.estimatedTimeMax = none ∧
  f.customFields = none ∧ f.testType = none ∧ f.testScriptType = none

/-- A labels value whose array form has no `null` element. -/
def labelsNoNull : LabelsVal → Bool
  | .larr es => es.all fun e =>
      match e with
      | .lnull => false
      | _ => true
  | _ => true

/-- A filters object with every key absent. -/
def noFilters : Filters :=
  ⟨none, none, none, none, none, none, none, none, none, none, none, none, none,
   none, none, none, none, none, none, none, none, none, none, none, none, none⟩

/-- An entity with every field absent. -/
def tcEmpty : TestCaseRec :=
  ⟨none, none, none, .absent, .absent, .absent, none, none, .absent, none, none,
   none, none, none, none, none, none, none⟩

/-- The spec scenario entity `{name:"User Login Test", status:"Draft", labels:["smoke"]}`. -/
def tcScenario : TestCaseRec :=
  { tcEmpty with
    name := some "User Login Test"
    status := .nstr "Draft"
    labels := .larr [.lstr "smoke"] }

/-- The spec scenario filters `{titleContains:"login", status:"Draft"}`. -/
def fScenDraft : Filters :=
  { noFilters with titleContains := some "login", status := some (.one "Draft") }

/-- The spec scenario filters `{titleContains:"login", status:"Approved"}`. -/
def fScenApproved : Filters :=
  { noFilters with titleContains := some "login", status := some (.one "Approved") }

/-- A filters object whose only present key is `modifiedAfter`. -/
def fModAfter : Filters :=
  { noFilters with modifiedAfter := some 1700000000000 }

/-- An entity whose labels array contains a `null` element. -/
def tcNullLabel : TestCaseRec :=
  { tcEmpty with labels := .larr [.lnull] }

/-- A flat (top-level-shaped) step record. -/
def flatStep (d t x : String) : JStep :=
  ⟨none, some d, some t, some x, none⟩

/-- An inline-shaped step record, as the remote service returns steps. -/
def inlineStep (d t x : String) : JStep :=
  ⟨none, none, none, none, some ⟨some d, some t, some x⟩⟩

/-! ## Theorems.  First, the generic lemmas about the stable-sort model. -/

theorem mem_insertByC (c : α → α → Int) (x : α) (l : List α) (z : α) :
    z ∈ insertByC c x l ↔ z = x ∨ z ∈ l := by
  induction l with
  | nil => simp [insertByC]
  | cons y ys ih =>
      unfold insertByC
      by_cases h : 0 < c y x
      · simp [h]
      · simp only [h, if_false, List.mem_cons, ih]
        tauto

theorem mem_sortByC_aux (c : α → α → Int) (l acc : List α) (z : α) :
    z ∈ l.foldl (fun acc x => insertByC c x acc) acc ↔ z ∈ acc ∨ z ∈ l := by
  induction l generalizing acc with
  | nil => simp
  | cons x xs ih =>
      simp only [List.foldl_cons, ih, mem_insertByC, List.mem_cons]
      tauto

theorem mem_sortByC (c : α → α → Int) (l : List α) (z : α) :
    z ∈ sortByC c l ↔ z ∈ l := by
  simp [sortByC, mem_sortByC_aux]

/-- If everything already in `l` is not strictly after `x`, insertion appends. -/
theorem insertByC_append (c : α → α → Int) (x : α) (l : List α)
    (h : ∀ y ∈ l, ¬ 0 < c y x) : insertByC c x l = l ++ [x] := by
  induction l with
  | nil => simp [insertByC]
  | cons y ys ih =>
      unfold insertByC
      rw [if_neg (h y (by simp))]
      simp only [List.cons_append, List.cons.injEq, true_and]
      exact ih fun z hz => h z (by simp [hz])

/-- Sorting a list that is already pairwise non-descending is the identity. -/
theorem sortByC_sorted_id (c : α → α → Int) (l : List α)
    (h : l.Pairwise fun a b => ¬ 0 < c a b) : sortByC c l = l := by
  suffices H : ∀ acc, (∀ y ∈ acc, ∀ x ∈ l, ¬ 0 < c y x) →
      l.foldl (fun acc x => insertByC c x acc) acc = acc ++ l by
    simpa using H [] (by simp)
  induction l with
  | nil => intro acc _; simp
  | cons x xs ih =>
      intro acc hacc
      have hpair := List.pairwise_cons.mp h
      simp only [List.foldl_cons]
      rw [insertByC_append c x acc (fun y hy => hacc y hy x (by simp))]
      rw [ih hpair.2 (acc ++ [x]) ?_]
      · simp
      · intro y hy z hz
        rcases List.mem_append.mp hy with h1 | h1
        · exact hacc y h1 z (by simp [hz])
        · simp only [List.mem_singleton] at h1
          subst h1
          exact hpair.1 z hz

theorem insertByC_inv {κ : Type} (key : α → κ) (kc : κ → κ → Int)
    (htrans : ∀ x y z : κ, 0 < kc x y → 0 < kc y z → 0 < kc x z)
    (hasym : ∀ x y : κ, 0 < kc x y → ¬ 0 < kc y x)
    (x : α) (l : List α) (hl : SortInv key kc l) :
    SortInv key kc (insertByC (keyCmp key kc) x l) := by
  induction l with
  | nil => simp [SortInv, insertByC]
  | cons y ys ih =>
      have hp := List.pairwise_cons.mp hl
      unfold insertByC
      by_cases h : 0 < keyCmp key kc y x
      · rw [if_pos h]
        refine List.pairwise_cons.mpr ⟨?_, hl⟩
        intro z hz
        rcases List.mem_cons.mp hz with h1 | h1
        · subst h1
          exact hasym _ _ h
        · intro hxz
          exact hp.1 z h1 (htrans _ _ _ h hxz)
      · rw [if_neg h]
        refine List.pairwise_cons.mpr ⟨?_, ih hp.2⟩
        intro z hz
        rcases (mem_insertByC _ x ys z).mp hz with h1 | h1
        · subst h1; exact h
        · exact hp.1 z h1

theorem insertByC_filter_eq {κ : Type} [DecidableEq κ] (key : α → κ) (kc : κ → κ → Int)
    (hrefl : ∀ v : κ, kc v v = 0)
    (x : α) (v : κ) (hx : key x = v) (l : List α)
    (hl : SortInv key kc l) :
    (insertByC (keyCmp key kc) x l).filter (fun e => decide (key e = v)) =
      l.filter (fun e => decide (key e = v)) ++ [x] := by
  induction l with
  | nil => simp [insertByC, List.filter_cons, hx]
  | cons y ys ih =>
      have hp := List.pairwise_cons.mp hl
      unfold insertByC
      by_cases h : 0 < keyCmp key kc y x
      · rw [if_pos h]
        have hyv : key y ≠ v := by
          intro hyv
          have : keyCmp key kc y x = 0 := by
            unfold keyCmp; rw [hyv, hx, hrefl]
          omega
        have hys : ∀ z ∈ ys, key z ≠ v := by
          intro z hz hzv
          have heq : keyCmp key kc y z = keyCmp key kc y x := by
            unfold keyCmp; rw [hzv, hx]
          exact hp.1 z hz (heq ▸ h)
        have hfilt : ys.filter (fun e => decide (key e = v)) = [] := by
          rw [List.filter_eq_nil_iff]
          intro z hz
          simpa using hys z hz
        simp [List.filter_cons, hx, hyv, hfilt]
      · rw [if_neg h]
        by_cases hyv : key y = v
        · simp [List.filter_cons, hyv, ih hp.2]
        · simp [List.filter_cons, hyv, ih hp.2]

theorem insertByC_filter_ne {κ : Type} [DecidableEq κ] (key : α → κ) (kc : κ → κ → Int)
    (x : α) (v : κ) (hx : key x ≠ v) (l : List α) :
    (insertByC (keyCmp key kc) x l).filter (fun e => decide (key e = v)) =
      l.filter (fun e => decide (key e = v)) := by
  induction l with
  | nil => simp [insertByC, List.filter_cons, hx]
  | cons y ys ih =>
      unfold insertByC
      by_cases h : 0 < keyCmp key kc y x
      · rw [if_pos h]; simp [List.filter_cons, hx]
      · rw [if_neg h]
        by_cases hyv : key y = v
        · simp [List.filter_cons, hyv, ih]
        · simp [List.filter_cons, hyv, ih]

/-- Stability of the modelled sort: the subsequence of elements whose key
equals any fixed value is exactly the same, in the same order, before and
after sorting. -/
theorem sortByC_filter_stable {κ : Type} [DecidableEq κ] (key : α → κ) (kc : κ → κ → Int)
    (hrefl : ∀ v : κ, kc v v = 0)
    (htrans : ∀ x y z : κ, 0 < kc x y → 0 < kc y z → 0 < kc x z)
    (hasym : ∀ x y : κ, 0 < kc x y → ¬ 0 < kc y x)
    (l : List α) (v : κ) :
    (sortByC (keyCmp key kc) l).filter (fun e => decide (key e = v)) =
      l.filter (fun e => decide (key e = v)) := by
  suffices H : ∀ acc, SortInv key kc acc →
      (l.foldl (fun acc x => insertByC (keyCmp key kc) x acc) acc).filter
          (fun e => decide (key e = v)) =
        acc.filter (fun e => decide (key e = v)) ++
          l.filter (fun e => decide (key e = v)) by
    simpa [sortByC] using H [] (by simp [SortInv])
  induction l with
  | nil => intro acc _; simp
  | cons x xs ih =>
      intro acc hacc
      simp only [List.foldl_cons]
      rw [ih (insertByC (keyCmp key kc) x acc)
            (insertByC_inv key kc htrans hasym x acc hacc)]
      by_cases hx : key x = v
      · rw [insertByC_filter_eq key kc hrefl x v hx acc hacc]
        simp [List.filter_cons, hx]
      · rw [insertByC_filter_ne key kc x v hx acc]
        simp [List.filter_cons, hx]

/-! ### Properties of the JS comparator `jcmp` and its directed form -/

theorem jcmp_str_pos {a b : String} : 0 < jcmp (.jstr a) (.jstr b) ↔ b < a := by
  simp only [jcmp]
  rcases lt_trichotomy a b with h | h | h
  · rw [if_pos h]
    exact iff_of_false (by omega) (asymm h)
  · subst h
    rw [if_neg (lt_irrefl a), if_neg (lt_irrefl a)]
    exact iff_of_false (by omega) (lt_irrefl a)
  · rw [if_neg (asymm h), if_pos h]
    exact iff_of_true one_pos h

theorem jcmp_str_neg {a b : String} : jcmp (.jstr a) (.jstr b) < 0 ↔ a < b := by
  simp only [jcmp]
  rcases lt_trichotomy a b with h | h | h
  · rw [if_pos h]
    exact iff_of_true (by omega) h
  · subst h
    rw [if_neg (lt_irrefl a), if_neg (lt_irrefl a)]
    exact iff_of_false (by omega) (lt_irrefl a)
  · rw [if_neg (asymm h), if_pos h]
    exact iff_of_false (by omega) (asymm h)

theorem jcmp_num_pos {a b : Int} : 0 < jcmp (.jnum a) (.jnum b) ↔ b < a := by
  simp only [jcmp]
  split_ifs with h1 h2 <;> omega

theorem jcmp_num_neg {a b : Int} : jcmp (.jnum a) (.jnum b) < 0 ↔ a < b := by
  simp only [jcmp]
  split_ifs with h1 h2 <;> omega

theorem jcmp_refl (v : JVal) : jcmp v v = 0 := by
  cases v with
  | jstr a => simp only [jcmp]; rw [if_neg (lt_irrefl a), if_neg (lt_irrefl a)]
  | jnum a => simp only [jcmp]; rw [if_neg (lt_irrefl a), if_neg (lt_irrefl a)]
  | jundefined => rfl

theorem jcmp_pos_trans {x y z : JVal} (h1 : 0 < jcmp x y) (h2 : 0 < jcmp y z) :
    0 < jcmp x z := by
  cases x <;> cases y <;> cases z
  all_goals try (simp only [jcmp] at h1 h2 ⊢; omega)
  · rw [jcmp_str_pos] at h1 h2 ⊢
    exact lt_trans h2 h1

theorem jcmp_pos_asym {x y : JVal} (h : 0 < jcmp x y) : ¬ 0 < jcmp y x := by
  cases x <;> cases y
  all_goals try (simp only [jcmp] at h ⊢; omega)
  · rw [jcmp_str_pos] at h ⊢
    exact asymm h

theorem jcmp_neg_trans {x y z : JVal} (h1 : jcmp x y < 0) (h2 : jcmp y z < 0) :
    jcmp x z < 0 := by
  cases x <;> cases y <;> cases z
  all_goals try (simp only [jcmp] at h1 h2 ⊢; omega)
  · rw [jcmp_str_neg] at h1 h2 ⊢
    exact lt_trans h1 h2

theorem jcmp_neg_asym {x y : JVal} (h : jcmp x y < 0) : ¬ jcmp y x < 0 := by
  cases x <;> cases y
  all_goals try (simp only [jcmp] at h ⊢; omega)
  · rw [jcmp_str_neg] at h ⊢
    exact asymm h

theorem dirCmp_refl (d : SortDir) (v : JVal) : dirCmp d v v = 0 := by
  cases d <;> simp [dirCmp, jcmp_refl]

theorem dirCmp_pos_trans (d : SortDir) (x y z : JVal)
    (h1 : 0 < dirCmp d x y) (h2 : 0 < dirCmp d y z) : 0 < dirCmp d x z := by
  cases d with
  | asc => exact jcmp_pos_trans h1 h2
  | desc =>
      simp only [dirCmp] at h1 h2 ⊢
      have g1 : jcmp x y < 0 := by omega
      have g2 : jcmp y z < 0 := by omega
      have := jcmp_neg_trans g1 g2
      omega

theorem dirCmp_pos_asym (d : SortDir) (x y : JVal)
    (h : 0 < dirCmp d x y) : ¬ 0 < dirCmp d y x := by
  cases d with
  | asc => exact jcmp_pos_asym h
  | desc =>
      simp only [dirCmp] at h ⊢
      have g : jcmp x y < 0 := by omega
      have := jcmp_neg_asym g
      omega

/-! ### Helper lemmas about the step-engine combinators -/

theorem mapIdx_length (f : Nat → α → β) (i : Nat) (l : List α) :
    (mapIdx f i l).length = l.length := by
  induction l generalizing i with
  | nil => rfl
  | cons x xs ih => simp [mapIdx, ih]

theorem mem_mapIdx (f : Nat → α → β) (i : Nat) (l : List α) (z : β)
    (hz : z ∈ mapIdx f i l) : ∃ j x, x ∈ l ∧ z = f j x := by
  induction l generalizing i with
  | nil => simp [mapIdx] at hz
  | cons x xs ih =>
      simp only [mapIdx, List.mem_cons] at hz
      rcases hz with h | h
      · exact ⟨i, x, by simp, h⟩
      · obtain ⟨j, y, hy, hzy⟩ := ih (i + 1) h
        exact ⟨j, y, by simp [hy], hzy⟩

theorem mem_filterIdx (p : Nat → α → Bool) (i : Nat) (l : List α) (z : α)
    (hz : z ∈ filterIdx p i l) : z ∈ l := by
  induction l generalizing i with
  | nil => simp [filterIdx] at hz
  | cons x xs ih =>
      simp only [filterIdx] at hz
      by_cases h : p i x = true
      · rw [if_pos h] at hz
        rcases List.mem_cons.mp hz with h1 | h1
        · simp [h1]
        · simp [ih (i + 1) h1]
      · rw [if_neg h] at hz
        simp [ih (i + 1) hz]

theorem filterIdx_length_le (p : Nat → α → Bool) (i : Nat) (l : List α) :
    (filterIdx p i l).length ≤ l.length := by
  induction l generalizing i with
  | nil => simp [filterIdx]
  | cons x xs ih =>
      simp only [filterIdx, List.length_cons]
      by_cases h : p i x = true
      · rw [if_pos h]
        simpa using Nat.succ_le_succ (ih (i + 1))
      · rw [if_neg h]
        exact Nat.le_succ_of_le (ih (i + 1))

theorem jsOr_isSome (a b : Option String) (h : b.isSome = true) :
    (jsOr a b).isSome = true := by
  unfold jsOr
  cases a with
  | none => exact h
  | some s => by_cases hs : s = "" <;> simp [hs, h]

/-- The index re-assignment of the APPEND branch keeps the payload fields. -/
theorem mapIdx_appendF_toItem (N : Int) (ss : List JStep) (i : Nat) :
    (mapIdx (fun idx step =>
        { step with index := some (jsOrInt step.index (N + idx + 1)) }) i ss).map toItem =
      ss.map toItem := by
  induction ss generalizing i with
  | nil => rfl
  | cons s rest ih => simp [mapIdx, toItem, ih]

/-- With no caller index on any fragment, APPEND assigns `N + position + 1`. -/
theorem mapIdx_appendF_indexes (N : Int) (ss : List JStep) :
    ∀ (i : Nat), (∀ s ∈ ss, s.index = none) →
    (mapIdx (fun idx step =>
        { step with index := some (jsOrInt step.index (N + idx + 1)) }) i ss).map
          (fun s => s.index) =
      (List.range ss.length).map (fun j => some (N + (i + j : Nat) + 1)) := by
  induction ss with
  | nil => intro i _; rfl
  | cons s rest ih =>
      intro i h
      have hs : s.index = none := h s (by simp)
      simp only [mapIdx, List.map_cons, hs, List.length_cons,
        List.range_succ_eq_map, List.map_map, List.cons.injEq]
      refine ⟨by simp [jsOrInt], ?_⟩
      rw [ih (i + 1) (fun x hx => h x (by simp [hx]))]
      refine List.map_congr_left fun j _ => ?_
      simp only [Function.comp]
      congr 1
      push_cast
      ring

theorem jsOrD_empty_self (t : String) : jsOrD (some t) "" = t := by
  unfold jsOrD
  by_cases h : t = "" <;> simp [h]

theorem jsOr_some_ne {s : String} (h : s ≠ "") (b : Option String) :
    jsOr (some s) b = some s := by
  simp [jsOr, h]

theorem jsOr_none (b : Option String) : jsOr none b = b := rfl

theorem stepDesc_flat (d t x : String) : stepDesc (flatStep d t x) = some d := rfl

theorem stepER_flat (d t x : String) : stepER (flatStep d t x) = some x := rfl

theorem stepTD_flat (d t x : String) : stepTD (flatStep d t x) = t := by
  by_cases h : t = "" <;> simp [stepTD, flatStep, jsOrD, h]

/-- The combined APPEND list (index-less existing steps followed by the
fragments with their assigned ascending indexes) is already in payload-sort
order, so the payload sort is the identity on it. -/
theorem append_sorted (existing ss : List JStep)
    (h1 : ∀ e ∈ existing, e.index = none)
    (h2 : ∀ s ∈ ss, s.index = none) :
    sortByC stepCmp
        (existing ++ mapIdx (fun idx (step : JStep) =>
          { step with index := some (jsOrInt step.index ((existing.length : Int) + idx + 1)) }) 0 ss) =
      existing ++ mapIdx (fun idx (step : JStep) =>
          { step with index := some (jsOrInt step.index ((existing.length : Int) + idx + 1)) }) 0 ss := by
  apply sortByC_sorted_id
  have hmap : (mapIdx (fun idx (step : JStep) =>
      { step with index := some (jsOrInt step.index ((existing.length : Int) + idx + 1)) }) 0 ss).map
        (fun s => s.index) =
      (List.range ss.length).map (fun j => some ((existing.length : Int) + (0 + j : Nat) + 1)) :=
    mapIdx_appendF_indexes (existing.length : Int) ss 0 h2
  have hzero : ∀ e ∈ existing, idxKey e = 0 := by
    intro e he
    simp [idxKey, h1 e he]
  have hpos : ∀ b ∈ mapIdx (fun idx (step : JStep) =>
      { step with index := some (jsOrInt step.index ((existing.length : Int) + idx + 1)) }) 0 ss,
      0 ≤ idxKey b ∧ ∀ a ∈ existing, idxKey a ≤ idxKey b := by
    intro b hb
    have hmem : b.index ∈ (mapIdx (fun idx (step : JStep) =>
        { step with index := some (jsOrInt step.index ((existing.length : Int) + idx + 1)) }) 0 ss).map
          (fun s => s.index) := List.mem_map_of_mem _ hb
    rw [hmap] at hmem
    obtain ⟨j, _, hj⟩ := List.mem_map.mp hmem
    have hk : idxKey b = (existing.length : Int) + (0 + j : Nat) + 1 := by
      simp [idxKey, ← hj]
    constructor
    · omega
    · intro a ha
      rw [hzero a ha, hk]
      omega
  have hle : (existing ++ mapIdx (fun idx (step : JStep) =>
      { step with index := some (jsOrInt step.index ((existing.length : Int) + idx + 1)) }) 0 ss).Pairwise
        (fun a b => idxKey a ≤ idxKey b) := by
    rw [List.pairwise_append]
    refine ⟨?_, ?_, ?_⟩
    · exact List.pairwise_of_forall_mem_list fun a ha b hb => by
        rw [hzero a ha, hzero b hb]
    · have : ((mapIdx (fun idx (step : JStep) =>
          { step with index := some (jsOrInt step.index ((existing.length : Int) + idx + 1)) }) 0 ss).map
            (fun s => s.index)).Pairwise (fun a b => a.getD 0 ≤ b.getD 0) := by
        rw [hmap]
        rw [List.pairwise_map]
        refine (List.pairwise_lt_range ss.length).imp ?_
        intro a b hab
        simp only [Option.getD_some]
        omega
      rw [List.pairwise_map] at this
      exact this.imp fun h => h
    · intro a ha b hb
      exact (hpos b hb).2 a ha
  refine hle.imp ?_
  intro a b hab
  simp only [stepCmp]
  omega

/-- Claim C2: UPDATE fragments naming a non-existent step index, and DELETE
indexes with no matching step, are silently ignored: the engine computes the
unchanged canonical list and hands it to the write boundary (`.ok (some _)`);
no local error is raised and no code path reads the `validateSteps` option.
Here: a one-step list, an UPDATE fragment with index 5, a DELETE set `[5]`,
both produce a write of the unchanged step. -/
theorem validateSteps_not_implemented :
    updateTestCaseSteps ⟨.UPDATE, some [⟨some 5, some "New", none, none, none⟩], none⟩
        [flatStep "A" "t" "x"] = .ok (some [⟨some "A", "t", "x"⟩]) ∧
    updateTestCaseSteps ⟨.DELETE, none, some [5]⟩ [flatStep "A" "t" "x"] =
      .ok (some [⟨some "A", "t", "x"⟩]) :=
  ⟨rfl, rfl⟩

/-- Claim C1 (counterexample): appending two fragments carrying caller
indexes 10 and 2 to a three-step list does NOT append them in the order
given: the payload sort reorders them by caller index (D2 before D1), so
caller-supplied indexes do affect the result. -/
theorem stepAppend_claim_counterexample :
    updateTestCaseSteps
        ⟨.APPEND, some [⟨some 10, some "D1", none, some "r1", none⟩,
          ⟨some 2, some "D2", none, some "r2", none⟩], none⟩
        [flatStep "A" "t" "x", flatStep "B" "u" "y", flatStep "C" "v" "z"] =
      .ok (some [⟨some "A", "t", "x"⟩, ⟨some "B", "u", "y"⟩, ⟨some "C", "v", "z"⟩,
        ⟨some "D2", "", "r2"⟩, ⟨some "D1", "", "r1"⟩]) :=
  rfl

/-- Claim C1 (amended): a caller-supplied non-zero index on an APPEND
fragment is kept (`step.index || (maxIndex + idx + 1)`), so only fragments
without an index get the sequential continuation `N+1, N+2, ...`; when every
fragment is index-less (and the existing raw steps carry no index), the
canonical payload is the concatenation of the existing steps and the
fragments in the order given. -/
theorem stepAppend_sequential (existing ss : List JStep)
    (h1 : ∀ e ∈ existing, e.index = none)
    (h2 : ∀ s ∈ ss, s.index = none)
    (h3 : ss ≠ [])
    (h4 : existing.length + ss.length ≤ 100) :
    updateTestCaseSteps ⟨.APPEND, some ss, none⟩ existing =
      .ok (some (existing.map toItem ++ ss.map toItem)) ∧
    (mapIdx (fun idx (step : JStep) =>
        { step with index := some (jsOrInt step.index ((existing.length : Int) + idx + 1)) }) 0 ss).map
        (fun s => s.index) =
      (List.range ss.length).map (fun j => some ((existing.length : Int) + (0 + j : Nat) + 1)) := by
  constructor
  · have hpos : 0 < ss.length := List.length_pos.mpr h3
    simp only [updateTestCaseSteps]
    rw [if_pos hpos]
    have hlen : (existing ++ mapIdx (fun idx (step : JStep) =>
        { step with index := some (jsOrInt step.index ((existing.length : Int) + idx + 1)) }) 0 ss).length =
        existing.length + ss.length := by
      rw [List.length_append, mapIdx_length]
    simp only [createTestCaseSteps, hlen]
    rw [if_neg (by omega), if_neg (by omega)]
    rw [append_sorted existing ss h1 h2]
    rw [List.map_append, mapIdx_appendF_toItem]
    rfl
  · exact mapIdx_appendF_indexes (existing.length : Int) ss 0 h2

theorem stepAppend_sequential_witness :
    updateTestCaseSteps
        ⟨.APPEND, some [⟨none, some "D1", none, some "r1", none⟩,
          ⟨none, some "D2", none, some "r2", none⟩], none⟩
        [flatStep "A" "t" "x", flatStep "B" "u" "y", flatStep "C" "v" "z"] =
      .ok (some ([flatStep "A" "t" "x", flatStep "B" "u" "y", flatStep "C" "v" "z"].map toItem ++
        [⟨none, some "D1", none, some "r1", none⟩,
          ⟨none, some "D2", none, some "r2", none⟩].map toItem)) :=
  (stepAppend_sequential _ _ (by decide) (by decide) (by decide) (by decide)).1

/-- Claim C4 (counterexample): REPLACE with fragments whose caller indexes
are out of order (2 then 1) writes them reordered by index (B before A), not
in the order given. -/
theorem stepReplace_claim_counterexample :
    updateTestCaseSteps
        ⟨.REPLACE, some [⟨some 2, some "A", none, some "x", none⟩,
          ⟨some 1, some "B", none, some "y", none⟩], none⟩ [] =
      .ok (some [⟨some "B", "", "y"⟩, ⟨some "A", "", "x"⟩]) :=
  rfl

/-- Claim C4 (amended): REPLACE ignores the current step list entirely, and
writes the caller's fragments stably sorted by ascending caller index with
the explicit indexes stripped (positional 1..N); in particular fragments
already in ascending index order are written exactly in the order given. -/
theorem stepReplace_sorts_by_index :
    (∀ (ss ex1 ex2 : List JStep),
      updateTestCaseSteps ⟨.REPLACE, some ss, none⟩ ex1 =
        updateTestCaseSteps ⟨.REPLACE, some ss, none⟩ ex2) ∧
    (∀ (ss existing : List JStep), ss ≠ [] → ss.length ≤ 100 →
      ss.Pairwise (fun a b => idxKey a ≤ idxKey b) →
      updateTestCaseSteps ⟨.REPLACE, some ss, none⟩ existing =
        .ok (some (ss.map toItem))) := by
  constructor
  · intro ss ex1 ex2
    rfl
  · intro ss existing hne hlen hsorted
    have hpos : 0 < ss.length := List.length_pos.mpr hne
    simp only [updateTestCaseSteps]
    rw [if_pos hpos]
    simp only [createTestCaseSteps]
    rw [if_neg (by omega), if_neg (by omega)]
    rw [sortByC_sorted_id stepCmp ss (hsorted.imp ?_)]
    · rfl
    · intro a b hab
      simp only [stepCmp]
      omega

theorem stepReplace_sorts_by_index_witness :
    updateTestCaseSteps
        ⟨.REPLACE, some [⟨some 1, some "B", none, some "y", none⟩,
          ⟨some 3, some "A", none, some "x", none⟩], none⟩ [flatStep "Z" "z" "z"] =
      .ok (some ([⟨some 1, some "B", none, some "y", none⟩,
        ⟨some 3, some "A", none, some "x", none⟩].map toItem)) :=
  stepReplace_sorts_by_index.2 _ _ (by decide) (by decide) (by decide)

/-- Claim C5 (counterexample): APPEND passes raw existing steps straight
through `createTestCaseSteps`, which reads only top-level fields; an
inline-shaped existing step therefore yields a payload item with NO
description (and its inline expectedResult is lost), so the canonical list is
not fully specified. -/
theorem canonical_description_counterexample :
    updateTestCaseSteps ⟨.APPEND, some [⟨some 2, some "B", none, some "y", none⟩], none⟩
        [inlineStep "A" "" "x"] =
      .ok (some [⟨none, "", ""⟩, ⟨some "B", "", "y"⟩]) :=
  rfl

/-- Claim C5 (amended): payload items always carry string `testData` and
`expectedResult` (defaulted to the empty string) and no explicit index, but
`description` is only guaranteed for the UPDATE and DELETE modes, which
re-read each existing step through `inline?.field || field`; provided every
existing step has a description in one of the two shapes, every item those
two modes hand to the write boundary has a description. -/
theorem updateDelete_fully_specified (existing : List JStep)
    (hd : ∀ e ∈ existing, (stepDesc e).isSome = true)
    (hlen : existing.length ≤ 100) :
    (∀ (ss : List JStep), ss ≠ [] → existing ≠ [] →
      ∃ items, updateTestCaseSteps ⟨.UPDATE, some ss, none⟩ existing = .ok (some items) ∧
        ∀ it ∈ items, it.description.isSome = true) ∧
    (∀ (dis : List Int), dis ≠ [] →
      ∃ items, updateTestCaseSteps ⟨.DELETE, none, some dis⟩ existing = .ok (some items) ∧
        ∀ it ∈ items, it.description.isSome = true) := by
  constructor
  · intro ss hss hex
    have hpos : 0 < ss.length := List.length_pos.mpr hss
    have hexpos : 0 < existing.length := List.length_pos.mpr hex
    simp only [updateTestCaseSteps]
    rw [if_pos hpos]
    simp only [createTestCaseSteps, mapIdx_length]
    rw [if_neg (by omega), if_neg (by omega)]
    refine ⟨_, rfl, ?_⟩
    intro it hit
    obtain ⟨s, hs, rfl⟩ := List.mem_map.mp hit
    have hs2 := (mem_sortByC _ _ _).mp hs
    obtain ⟨j, e, he, rfl⟩ := mem_mapIdx _ _ _ _ hs2
    cases hcase : updateLookup ss ((j : Int) + 1) with
    | some u =>
        simp only [toItem, updStep, hcase]
        exact jsOr_isSome _ _ (hd e he)
    | none =>
        simp only [toItem, updStep, hcase]
        exact hd e he
  · intro dis hdis
    have hpos : 0 < dis.length := List.length_pos.mpr hdis
    have hb : (filterIdx (fun idx _ => !(dis.contains ((idx : Int) + 1))) 0 existing).length ≤
        existing.length := filterIdx_length_le _ _ _
    simp only [updateTestCaseSteps]
    rw [if_pos hpos]
    split
    case isTrue hr =>
      simp only [mapIdx_length] at hr
      simp only [createTestCaseSteps, mapIdx_length]
      rw [if_neg (by omega), if_neg (by omega)]
      refine ⟨_, rfl, ?_⟩
      intro it hit
      obtain ⟨s, hs, rfl⟩ := List.mem_map.mp hit
      have hs2 := (mem_sortByC _ _ _).mp hs
      obtain ⟨j, e, he, rfl⟩ := mem_mapIdx _ _ _ _ hs2
      simp only [toItem]
      exact hd e (mem_filterIdx _ _ _ _ he)
    case isFalse hr =>
      exact ⟨[], rfl, by simp⟩

theorem updateDelete_fully_specified_witness :
    ∃ items, updateTestCaseSteps ⟨.UPDATE, some [⟨some 1, none, none, some "R", none⟩], none⟩
        [flatStep "A" "t" "x", inlineStep "B" "u" "y"] = .ok (some items) ∧
      ∀ it ∈ items, it.description.isSome = true :=
  (updateDelete_fully_specified [flatStep "A" "t" "x", inlineStep "B" "u" "y"]
    (by decide) (by decide)).1 _ (by decide) (by decide)

/-- Claim C6 (counterexample): an UPDATE fragment whose `description` is
present but empty is NOT overlaid — `update.description || existing...` is a
JS truthiness test, so step 2 keeps its old description "B" instead of
becoming the empty string. -/
theorem updateOverlay_empty_counterexample :
    updateTestCaseSteps ⟨.UPDATE, some [⟨some 2, some "", none, none, none⟩], none⟩
        [flatStep "A" "t" "x", flatStep "B" "u" "y"] =
      .ok (some [⟨some "A", "t", "x"⟩, ⟨some "B", "u", "y"⟩]) :=
  rfl

theorem mapIdx_map (g : β → γ) (f : Nat → α → β) :
    ∀ (i : Nat) (l : List α),
    (mapIdx f i l).map g = mapIdx (fun j x => g (f j x)) i l := by
  intro i l
  induction l generalizing i with
  | nil => rfl
  | cons x xs ih => simp [mapIdx, ih]

theorem mapIdx_congr (f g : Nat → α → β) (h : ∀ j x, f j x = g j x) :
    ∀ (i : Nat) (l : List α), mapIdx f i l = mapIdx g i l := by
  intro i l
  induction l generalizing i with
  | nil => rfl
  | cons x xs ih => simp [mapIdx, ih, h]

theorem updStep_index (ss : List JStep) (i : Nat) (e : JStep) :
    (updStep ss i e).index = some ((i : Int) + 1) := by
  unfold updStep
  cases updateLookup ss ((i : Int) + 1) <;> rfl

theorem toItem_updStep (ss : List JStep) (j : Nat) (e : JStep) :
    toItem (updStep ss j e) = overlayItem (updateLookup ss ((j : Int) + 1)) e := by
  unfold updStep overlayItem toItem
  cases updateLookup ss ((j : Int) + 1) <;> rfl

/-- The indexes of the UPDATE mode's re-built list are positional:
`i + 1, i + 2, ...` in order. -/
theorem mapIdx_updStep_indexes (ss : List JStep) :
    ∀ (l : List JStep) (i : Nat),
    (mapIdx (updStep ss) i l).map (fun s => s.index) =
      (List.range l.length).map (fun j => some (((i + j : Nat) : Int) + 1)) := by
  intro l
  induction l with
  | nil => intro i; rfl
  | cons e rest ih =>
      intro i
      simp only [mapIdx, List.map_cons, List.length_cons,
        List.range_succ_eq_map, List.map_map, List.cons.injEq]
      refine ⟨?_, ?_⟩
      · rw [updStep_index]
        congr 1
      · rw [ih (i + 1)]
        refine List.map_congr_left fun j _ => ?_
        simp only [Function.comp]
        congr 1
        push_cast
        ring

/-- The UPDATE mode's re-built list is already in payload-sort order
(positional indexes 1..N), so the payload sort is the identity on it. -/
theorem update_sorted (ss existing : List JStep) :
    sortByC stepCmp (mapIdx (updStep ss) 0 existing) =
      mapIdx (updStep ss) 0 existing := by
  apply sortByC_sorted_id
  have hkeys : (mapIdx (updStep ss) 0 existing).map idxKey =
      (List.range existing.length).map (fun j => (((0 + j : Nat) : Int) + 1)) := by
    have hcomp : (mapIdx (updStep ss) 0 existing).map idxKey =
        ((mapIdx (updStep ss) 0 existing).map (fun s => s.index)).map
          (fun o => o.getD 0) := by
      rw [List.map_map]
      rfl
    rw [hcomp, mapIdx_updStep_indexes ss existing 0, List.map_map]
    rfl
  have hpair : ((mapIdx (updStep ss) 0 existing).map idxKey).Pairwise (· ≤ ·) := by
    rw [hkeys, List.pairwise_map]
    refine (List.pairwise_lt_range existing.length).imp ?_
    intro a b hab
    omega
  rw [List.pairwise_map] at hpair
  refine hpair.imp ?_
  intro a b hab
  simp only [stepCmp]
  omega

/-- Claim C6 (amended): for every UPDATE operation and every existing step
list, the canonical payload is exactly one item per existing step, in
position order (indexes are positional 1..N, never altered), each item the
overlay of the fragment matched at its position: a fragment `description`
or `expectedResult` is overlaid only when present AND non-empty (JS
truthiness) and otherwise the current value is kept, `testData` is
overlaid whenever present — including the empty string — and otherwise
kept, and a step with no matching fragment passes its values through
(inline shape flattened, testData and expectedResult normalized to the
empty string only when unset). -/
theorem updateOverlay_frame :
    (∀ (existing ss : List JStep), existing ≠ [] → ss ≠ [] →
      existing.length ≤ 100 →
      updateTestCaseSteps ⟨.UPDATE, some ss, none⟩ existing =
        .ok (some (mapIdx (fun idx e =>
          overlayItem (updateLookup ss ((idx : Int) + 1)) e) 0 existing))) ∧
    (∀ (u e : JStep) (d : String), u.description = some d → d ≠ "" →
      (overlayItem (some u) e).description = some d) ∧
    (∀ (u e : JStep), u.description = none ∨ u.description = some "" →
      (overlayItem (some u) e).description = stepDesc e) ∧
    (∀ (u e : JStep) (t : String), u.testData = some t →
      (overlayItem (some u) e).testData = t) ∧
    (∀ (u e : JStep), u.testData = none →
      (overlayItem (some u) e).testData = stepTD e) ∧
    (∀ (u e : JStep) (r : String), u.expectedResult = some r → r ≠ "" →
      (overlayItem (some u) e).expectedResult = r) ∧
    (∀ (u e : JStep), u.expectedResult = none ∨ u.expectedResult = some "" →
      (overlayItem (some u) e).expectedResult = (stepER e).getD "") ∧
    (∀ (e : JStep), overlayItem none e =
      ⟨stepDesc e, stepTD e, (stepER e).getD ""⟩) := by
  refine ⟨?_, ?_, ?_, ?_, ?_, ?_, ?_, fun e => rfl⟩
  · intro existing ss hex hss hlen
    have hexpos : 0 < existing.length := List.length_pos.mpr hex
    simp only [updateTestCaseSteps]
    rw [if_pos (List.length_pos.mpr hss)]
    simp only [createTestCaseSteps, mapIdx_length]
    rw [if_neg (by omega), if_neg (by omega)]
    rw [update_sorted ss existing, mapIdx_map toItem (updStep ss) 0 existing]
    rw [mapIdx_congr _ _ (fun j x => toItem_updStep ss j x) 0 existing]
    rfl
  · intro u e d hd hne
    simp [overlayItem, hd, jsOr, hne]
  · intro u e hd
    rcases hd with hd | hd <;> simp [overlayItem, hd, jsOr]
  · intro u e t ht
    simp [overlayItem, ht]
  · intro u e ht
    simp [overlayItem, ht]
  · intro u e r hrr hne
    simp [overlayItem, hrr, jsOr, hne]
  · intro u e hrr
    rcases hrr with hrr | hrr <;> simp [overlayItem, hrr, jsOr]

theorem updateOverlay_frame_witness :
    updateTestCaseSteps ⟨.UPDATE, some [⟨some 2, none, none, some "R", none⟩], none⟩
        [flatStep "A" "t" "x", flatStep "B" "u" "y", flatStep "C" "v" "z"] =
      .ok (some [⟨some "A", "t", "x"⟩, ⟨some "B", "u", "R"⟩, ⟨some "C", "v", "z"⟩]) :=
  (updateOverlay_frame.1 _ _ (by decide) (by decide) (by decide)).trans (by rfl)

/-! ### Filter-engine lemmas and claims -/

theorem evalMatches_noKeys (f : Filters) (h : noRecognizedKeys f) (o : QueryOpts)
    (tc : TestCaseRec) : evalMatches f o tc = .ok [] := by
  obtain ⟨h1, h2, h3, h4, h5, h6, h7, h8, h9, h10, h11, h12, h13, h14, h15, h16,
    h17, h18, h19, h20, h21, h22, h23, h24⟩ := h
  simp [evalMatches, labelsBools, push1, h1, h2, h3, h4, h5, h6, h7, h8, h9, h10,
    h11, h12, h13, h14, h15, h16, h17, h18, h19, h20, h21, h22, h23, h24]

theorem entityIncluded_noKeys (f : Filters) (h : noRecognizedKeys f) (o : QueryOpts)
    (tc : TestCaseRec) : entityIncluded f o tc = .ok true := by
  unfold entityIncluded
  rw [evalMatches_noKeys f h o tc]
  rfl

theorem filterTestCases_all_true (f : Filters) (o : QueryOpts)
    (h : ∀ tc, entityIncluded f o tc = .ok true) :
    ∀ l, filterTestCases f o l = .ok l := by
  intro l
  induction l with
  | nil => rfl
  | cons tc rest ih => simp [filterTestCases, h tc, ih]

/-- Claim C8: a filter spec with zero recognized keys — or no filters object
at all — filters nothing: the input list is returned unchanged and in order
(`createdBy`/`lastModifiedBy` may be present; no predicate reads them). -/
theorem filter_identity_on_unrecognized :
    (∀ (o : QueryOpts) (l : List TestCaseRec), applyFilters none o l = .ok l) ∧
    (∀ (f : Filters) (o : QueryOpts) (l : List TestCaseRec), noRecognizedKeys f →
      applyFilters (some f) o l = .ok l) := by
  constructor
  · intro o l
    rfl
  · intro f o l h
    exact filterTestCases_all_true f o (fun tc => entityIncluded_noKeys f h o tc) l

theorem filter_identity_on_unrecognized_witness :
    noRecognizedKeys
        { noFilters with createdBy := some "jane", lastModifiedBy := some "admin" } ∧
    applyFilters
        (some { noFilters with createdBy := some "jane", lastModifiedBy := some "admin" })
        ⟨.OR, true⟩ [tcScenario, tcEmpty] = .ok [tcScenario, tcEmpty] :=
  ⟨⟨rfl, rfl, rfl, rfl, rfl, rfl, rfl, rfl, rfl, rfl, rfl, rfl, rfl, rfl, rfl,
    rfl, rfl, rfl, rfl, rfl, rfl, rfl, rfl, rfl⟩,
   filter_identity_on_unrecognized.2 _ _ _
    ⟨rfl, rfl, rfl, rfl, rfl, rfl, rfl, rfl, rfl, rfl, rfl, rfl, rfl, rfl, rfl,
     rfl, rfl, rfl, rfl, rfl, rfl, rfl, rfl, rfl⟩⟩

/-- Claim C3 (counterexample): an entity with no last-modified timestamp is
INCLUDED under AND mode when the only present filter key is `modifiedAfter`:
the guard `filters.modifiedAfter !== undefined && testCase.lastModifiedOn`
pushes no boolean at all, so the empty `matches` list passes the entity. -/
theorem modifiedFilter_counterexample :
    filterTestCases fModAfter ⟨.AND, false⟩ [tcEmpty] = .ok [tcEmpty] ∧
    evalMatches fModAfter ⟨.AND, false⟩ tcEmpty = .ok [] :=
  ⟨rfl, rfl⟩

/-- Claim C3 (amended): against an entity with no last-modified timestamp the
`modifiedAfter`/`modifiedBefore` filters contribute nothing to the collected
booleans — the evaluation is identical to one with both keys absent (a
skipped filter, not a false match). -/
theorem modifiedFilter_skips (tc : TestCaseRec) (h : tc.lastModifiedOn = none)
    (f : Filters) (o : QueryOpts) :
    evalMatches f o tc =
      evalMatches { f with modifiedAfter := none, modifiedBefore := none } o tc := by
  rcases hma : f.modifiedAfter with _ | v <;>
    rcases hmb : f.modifiedBefore with _ | w <;>
      simp [evalMatches, labelsBools, h, hma, hmb]

theorem modifiedFilter_skips_witness :
    tcEmpty.lastModifiedOn = none ∧
    evalMatches fModAfter ⟨.AND, false⟩ tcEmpty =
      evalMatches { fModAfter with modifiedAfter := none, modifiedBefore := none }
        ⟨.AND, false⟩ tcEmpty :=
  ⟨rfl, modifiedFilter_skips tcEmpty rfl fModAfter ⟨.AND, false⟩⟩

/-- Claim C7 (counterexample): a non-empty spec (exactly one present key,
`modifiedAfter`) collects ZERO booleans against a timestamp-less entity, and
under OR mode the entity is nevertheless included — against "one boolean per
filter key present" and "OR requires at least one true". -/
theorem combination_per_key_counterexample :
    presentKeyCount fModAfter = 1 ∧
    evalMatches fModAfter ⟨.OR, false⟩ tcEmpty = .ok [] ∧
    entityIncluded fModAfter ⟨.OR, false⟩ tcEmpty = .ok true ∧
    filterTestCases fModAfter ⟨.OR, false⟩ [tcEmpty] = .ok [tcEmpty] :=
  ⟨rfl, rfl, rfl, rfl⟩

/-- Claim C7 (amended): whenever the collected boolean list is non-empty the
engine includes the entity iff all booleans are true under AND, or at least
one is true under OR (an empty collected list always passes); the spec
scenario holds: `{titleContains:"login", status:"Draft"}` AND-includes the
scenario entity, `{titleContains:"login", status:"Approved"}` AND-excludes it
and OR-includes it. -/
theorem combination_rule :
    (∀ (f : Filters) (o : QueryOpts) (tc : TestCaseRec) (ms : List Bool),
      evalMatches f o tc = .ok ms → ms ≠ [] →
      entityIncluded f o tc = .ok (match o.searchMode with
        | .AND => ms.all id
        | .OR => ms.any id)) ∧
    filterTestCases fScenDraft ⟨.AND, false⟩ [tcScenario] = .ok [tcScenario] ∧
    filterTestCases fScenApproved ⟨.AND, false⟩ [tcScenario] = .ok [] ∧
    filterTestCases fScenApproved ⟨.OR, false⟩ [tcScenario] = .ok [tcScenario] := by
  refine ⟨?_, rfl, rfl, rfl⟩
  intro f o tc ms hms hne
  unfold entityIncluded
  rw [hms]
  have hlen : ¬ ms.length = 0 := fun hh => hne (List.length_eq_zero.mp hh)
  simp only [if_neg hlen]
  rcases o with ⟨sm, cs⟩
  cases sm <;> rfl

theorem combination_rule_witness :
    evalMatches fScenDraft ⟨.AND, false⟩ tcScenario = .ok [true, true] ∧
    ([true, true] : List Bool) ≠ [] ∧
    entityIncluded fScenDraft ⟨.AND, false⟩ tcScenario = .ok ([true, true].all id) :=
  ⟨rfl, by decide,
   combination_rule.1 fScenDraft ⟨.AND, false⟩ tcScenario [true, true] rfl (by decide)⟩

/-- Claim C10 (counterexample): a `null` element inside a labels array makes
predicate evaluation THROW when a labels filter is present — in JS,
`typeof null === 'object'`, so the normalizer evaluates `null.name`. -/
theorem labels_null_throws :
    entityIncluded { noFilters with labels := some ["x"] } ⟨.AND, false⟩ tcNullLabel =
      .error "TypeError: Cannot read properties of null (reading name)" ∧
    filterTestCases { noFilters with labels := some ["x"] } ⟨.AND, false⟩ [tcNullLabel] =
      .error "TypeError: Cannot read properties of null (reading name)" :=
  ⟨rfl, rfl⟩

theorem normList_ok (es : List LabelElem)
    (h : (es.all fun e => match e with | .lnull => false | _ => true) = true) :
    ∃ tls, normList es = .ok tls := by
  induction es with
  | nil => exact ⟨[], rfl⟩
  | cons e rest ih =>
      rw [List.all_cons, Bool.and_eq_true] at h
      obtain ⟨tls, htls⟩ := ih h.2
      cases e with
      | lnull => simp at h
      | lstr s => exact ⟨s :: tls, by simp [normList, normElem, htls]⟩
      | lobj n v =>
          exact ⟨jsOrD n (jsOrD v "[object Object]") :: tls,
            by simp [normList, normElem, htls]⟩

theorem normalizeLabels_ok (lv : LabelsVal) (h : labelsNoNull lv = true) :
    ∃ tls, normalizeLabels lv = .ok tls := by
  cases lv with
  | larr es => exact normList_ok es (by simpa [labelsNoNull] using h)
  | lsstr s => exact ⟨_, rfl⟩
  | lsobj n v => exact ⟨_, rfl⟩
  | absent => exact ⟨_, rfl⟩

/-- Claim C10 (amended): over every entity shape of the model — folder as
object, string or absent; labels as string array, object array,
comma-separated string, single object or absent; any other field missing —
evaluation of the full predicate set returns a result (never throws),
PROVIDED any labels array contains no `null` element. -/
theorem predicates_total (tc : TestCaseRec) (h : labelsNoNull tc.labels = true)
    (f : Filters) (o : QueryOpts) :
    ∃ ms, evalMatches f o tc = .ok ms := by
  have hlb : ∃ lb, labelsBools f o tc = .ok lb := by
    rcases hfl : f.labels with _ | fls
    · exact ⟨[], by simp [labelsBools, hfl]⟩
    · by_cases hlen : fls.length > 0
      · obtain ⟨tls, htls⟩ := normalizeLabels_ok tc.labels h
        exact ⟨[labelMatch o.caseSensitive fls tls],
          by simp [labelsBools, hfl, hlen, htls, Except.map]⟩
      · exact ⟨[], by simp [labelsBools, hfl, hlen]⟩
  obtain ⟨lb, hlb⟩ := hlb
  unfold evalMatches
  rw [hlb]
  exact ⟨_, rfl⟩

theorem predicates_total_witness :
    labelsNoNull tcScenario.labels = true ∧
    ∃ ms, evalMatches fScenDraft ⟨.OR, false⟩ tcScenario = .ok ms :=
  ⟨rfl, predicates_total tcScenario rfl fScenDraft ⟨.OR, false⟩⟩

/-- Claim C9: the sort is stable — for every sort key, direction and key
value, the subsequence of entities whose coerced sort value equals that value
is unchanged by sorting; the desc comparator is exactly the negation of the
asc comparator; and the per-key coercions default absent
name/priority/status/folder to the empty string, absent lastModifiedOn to
epoch zero and absent estimatedTime to 0. -/
theorem sortEngine_stable :
    (∀ (k : SortKey) (d : SortDir) (l : List TestCaseRec) (v : JVal),
      (sortTestCases k d l).filter (fun e => decide (sortVal k e = v)) =
        l.filter (fun e => decide (sortVal k e = v))) ∧
    (∀ (k : SortKey) (a b : TestCaseRec),
      entityCmp k .desc a b = -(entityCmp k .asc a b)) ∧
    sortVal .name tcEmpty = .jstr "" ∧
    sortVal .priority tcEmpty = .jstr "" ∧
    sortVal .status tcEmpty = .jstr "" ∧
    sortVal .folder tcEmpty = .jstr "" ∧
    sortVal .lastModifiedOn tcEmpty = .jnum 0 ∧
    sortVal .estimatedTime tcEmpty = .jnum 0 := by
  refine ⟨?_, ?_, rfl, rfl, rfl, rfl, rfl, rfl⟩
  · intro k d l v
    have hcmp : entityCmp k d = keyCmp (sortVal k) (dirCmp d) := rfl
    unfold sortTestCases
    rw [hcmp]
    exact sortByC_filter_stable (sortVal k) (dirCmp d) (dirCmp_refl d)
      (dirCmp_pos_trans d) (dirCmp_pos_asym d) l v
  · intro k a b
    rfl
